import Mathlib

/-!
# Verification of the reth trie prefix-set engine

Shallow embedding of `crates/trie/common/src/prefix_set.rs`:
the mutable builder `PrefixSetMut`, the frozen `PrefixSet` with its
resumable-cursor `contains`, and the aggregates `TriePrefixSetsMut` /
`TriePrefixSets`.

Modelling conventions:
* A `Nibbles` path is a `List Nat`; the source's `Ord` on `Nibbles` is
  lexicographic over the nibble sequence and `starts_with` is sequence
  prefixing, both modelled directly below.
* 32-byte hashes (`B256`) are modelled as `Nat`; the `B256Map` is an
  association list with unique keys and the `B256Set` a duplicate-free list.
* Rust slice indexing can panic; fallible steps return `Option`, with
  `none` standing for a panic.
-/

/-- Trie key path: a sequence of nibbles. -/
abbrev Nibbles := List Nat

/-- 32-byte hash, modelled as a natural number. -/
abbrev B256 := Nat

/-- Lexicographic strict order on nibble paths; models `Ord for Nibbles`
(`a < b`). -/
def nibblesLt : Nibbles → Nibbles → Bool
  | _, [] => false
  | [], _ :: _ => true
  | a :: as, b :: bs => if a < b then true else if a = b then nibblesLt as bs else false

/-- `startsWith k q` models `k.starts_with(q)`: `k` begins with every
nibble of `q` in order. -/
def startsWith : Nibbles → Nibbles → Bool
  | _, [] => true
  | [], _ :: _ => false
  | k :: ks, q :: qs => k = q && startsWith ks qs

/-- Non-strict companion of `nibblesLt`, as a proposition. -/
def nibblesLe (a b : Nibbles) : Prop := nibblesLt b a = false

instance (a b : Nibbles) : Decidable (nibblesLe a b) := by
  unfold nibblesLe; infer_instance

/-- The mutable builder `PrefixSetMut`: an `all` flag plus an append-only
key list. -/
structure PrefixSetMut where
  all : Bool
  keys : List Nibbles
deriving DecidableEq, Repr

namespace PrefixSetMut

/-- `PrefixSetMut::default()`: empty, `all` unset. -/
def empty : PrefixSetMut := ⟨false, []⟩

/-- `PrefixSetMut::all()`: `all` set, `keys` empty. -/
def allChanged : PrefixSetMut := ⟨true, []⟩

/-- `PrefixSetMut::insert`: pushes the path onto `keys` (the `all` flag is
not consulted). -/
def insert (s : PrefixSetMut) (x : Nibbles) : PrefixSetMut :=
  { s with keys := s.keys ++ [x] }

/-- `PrefixSetMut::extend`: `all |= other.all`, then append `other.keys`. -/
def extend (s o : PrefixSetMut) : PrefixSetMut :=
  ⟨s.all || o.all, s.keys ++ o.keys⟩

/-- `PrefixSetMut::extend_keys`: append the given paths. -/
def extend_keys (s : PrefixSetMut) (l : List Nibbles) : PrefixSetMut :=
  { s with keys := s.keys ++ l }

/-- `PrefixSetMut::len`: length of the key list. -/
def len (s : PrefixSetMut) : Nat := s.keys.length

/-- `PrefixSetMut::is_empty`: whether the key list is empty. -/
def is_empty (s : PrefixSetMut) : Bool := s.keys.isEmpty

end PrefixSetMut

/-- Insert into a `nibblesLt`-sorted list, keeping existing elements in
front while they are strictly smaller. -/
def insertSorted (x : Nibbles) : List Nibbles → List Nibbles
  | [] => [x]
  | y :: ys => if nibblesLt y x then y :: insertSorted x ys else x :: y :: ys

/-- Sorting by repeated insertion; models `Vec::sort_unstable` (any sort
produces the same sorted permutation, duplicates being identical). -/
def sortNibbles : List Nibbles → List Nibbles
  | [] => []
  | x :: xs => insertSorted x (sortNibbles xs)

/-- Remove consecutive duplicates; models `Vec::dedup`. -/
def dedupConsec : List Nibbles → List Nibbles
  | [] => []
  | [a] => [a]
  | a :: b :: rest =>
    if a = b then dedupConsec (b :: rest) else a :: dedupConsec (b :: rest)

/-- The frozen `PrefixSet`: `all` flag, resumable cursor `index`, and the
shared sorted key list. -/
structure PrefixSet where
  all : Bool
  index : Nat
  keys : List Nibbles
deriving DecidableEq, Repr

/-- `PrefixSetMut::freeze`: the `all` case drops the keys; otherwise sort,
dedup and reset the cursor. -/
def PrefixSetMut.freeze (s : PrefixSetMut) : PrefixSet :=
  if s.all then ⟨true, 0, []⟩
  else ⟨false, 0, dedupConsec (sortNibbles s.keys)⟩

/-- The rewind loop of `PrefixSet::contains`:
`while index > 0 && keys[index] > prefix { index -= 1 }`.
`none` models the panic of an out-of-bounds `keys[index]`. -/
def rewind (keys : List Nibbles) (q : Nibbles) : Nat → Option Nat
  | 0 => some 0
  | i + 1 =>
    match keys.get? (i + 1) with
    | none => none
    | some k => if nibblesLt q k then rewind keys q i else some (i + 1)

/-- The forward scan of `PrefixSet::contains` over `keys[index..]`:
`j` is the absolute position of the current element, `base` the cursor
value left by the rewind (kept when the scan falls off the end). -/
def scanGo (q : Nibbles) (base : Nat) : List Nibbles → Nat → Bool × Nat
  | [], _ => (false, base)
  | k :: ks, j =>
    if startsWith k q then (true, j)
    else if nibblesLt q k then (false, j)
    else scanGo q base ks (j + 1)

/-- `PrefixSet::contains`: short-circuit on `all`, rewind the cursor, then
scan forward. Returns the answer and the updated set; `none` models a
panic. -/
def PrefixSet.contains (s : PrefixSet) (q : Nibbles) : Option (Bool × PrefixSet) :=
  if s.all then some (true, s)
  else
    match rewind s.keys q s.index with
    | none => none
    | some i =>
      let r := scanGo q i (s.keys.drop i) i
      some (r.1, ⟨s.all, r.2, s.keys⟩)

/-- `PrefixSet::len`. -/
def PrefixSet.len (s : PrefixSet) : Nat := s.keys.length

/-- `PrefixSet::is_empty`. -/
def PrefixSet.is_empty (s : PrefixSet) : Bool := s.keys.isEmpty

/-- Cursor positions the implementation actually maintains: `0`, or a
valid index into `keys`. -/
def cursorOK (s : PrefixSet) : Prop := s.index = 0 ∨ s.index < s.keys.length

instance (s : PrefixSet) : Decidable (cursorOK s) := by
  unfold cursorOK; infer_instance

/-- Run a sequence of `contains` queries, threading the cursor state;
`none` if any call panics. -/
def runQueries (s : PrefixSet) : List Nibbles → Option PrefixSet
  | [] => some s
  | q :: qs =>
    match s.contains q with
    | none => none
    | some (_, s') => runQueries s' qs

/-- The aggregate `TriePrefixSetsMut`: account set, per-address storage
sets (association list with unique keys), destroyed accounts. -/
structure TriePrefixSetsMut where
  account_prefix_set : PrefixSetMut
  storage_prefix_sets : List (B256 × PrefixSetMut)
  destroyed_accounts : List B256
deriving DecidableEq, Repr

/-- The frozen aggregate `TriePrefixSets`. -/
structure TriePrefixSets where
  account_prefix_set : PrefixSet
  storage_prefix_sets : List (B256 × PrefixSet)
  destroyed_accounts : List B256
deriving DecidableEq, Repr

/-- Association-list lookup; models `HashMap::get`. -/
def assocLookup {β : Type} : List (B256 × β) → B256 → Option β
  | [], _ => none
  | (a, v) :: rest, x => if x = a then some v else assocLookup rest x

/-- Models `storage_prefix_sets.entry(a).or_default().extend(ps)`: extend
the existing entry for `a`, or insert `default().extend(ps)`. -/
def mapExtendEntry : List (B256 × PrefixSetMut) → B256 → PrefixSetMut → List (B256 × PrefixSetMut)
  | [], a, ps => [(a, PrefixSetMut.empty.extend ps)]
  | (b, v) :: rest, a, ps =>
    if a = b then (b, v.extend ps) :: rest else (b, v) :: mapExtendEntry rest a ps

/-- Models `HashSet::extend`: insert each element not already present. -/
def setExtend (d : List B256) (l : List B256) : List B256 :=
  l.foldl (fun d x => if x ∈ d then d else d ++ [x]) d

namespace TriePrefixSetsMut

/-- `TriePrefixSetsMut::is_empty`. -/
def is_empty (t : TriePrefixSetsMut) : Bool :=
  t.account_prefix_set.is_empty && t.storage_prefix_sets.isEmpty &&
    t.destroyed_accounts.isEmpty

/-- `TriePrefixSetsMut::extend`. -/
def extend (t o : TriePrefixSetsMut) : TriePrefixSetsMut :=
  { account_prefix_set := t.account_prefix_set.extend o.account_prefix_set
    storage_prefix_sets :=
      o.storage_prefix_sets.foldl (fun m e => mapExtendEntry m e.1 e.2) t.storage_prefix_sets
    destroyed_accounts := setExtend t.destroyed_accounts o.destroyed_accounts }

/-- `TriePrefixSetsMut::freeze`: freeze the account set and every storage
set, move the destroyed accounts unchanged. -/
def freeze (t : TriePrefixSetsMut) : TriePrefixSets :=
  { account_prefix_set := t.account_prefix_set.freeze
    storage_prefix_sets := t.storage_prefix_sets.map fun e => (e.1, e.2.freeze)
    destroyed_accounts := t.destroyed_accounts }

end TriePrefixSetsMut

/-! ## Order facts about `nibblesLt` and `startsWith` -/

theorem nibblesLt_nil_right (a : Nibbles) : nibblesLt a [] = false := by
  cases a <;> rfl

theorem nibblesLt_cons_iff (x y : Nat) (xs ys : Nibbles) :
    nibblesLt (x :: xs) (y :: ys) = true ↔ x < y ∨ (x = y ∧ nibblesLt xs ys = true) := by
  by_cases h1 : x < y
  · simp [nibblesLt, h1]
  · by_cases h2 : x = y
    · simp [nibblesLt, h1, h2]
    · simp [nibblesLt, h1, h2]

theorem nibblesLt_irrefl (a : Nibbles) : nibblesLt a a = false := by
  induction a with
  | nil => rfl
  | cons x xs ih =>
    rw [Bool.eq_false_iff, Ne, nibblesLt_cons_iff]
    simp [ih]

theorem nibblesLt_trans : ∀ {a b c : Nibbles},
    nibblesLt a b = true → nibblesLt b c = true → nibblesLt a c = true := by
  intro a
  induction a with
  | nil =>
    intro b c h1 h2
    cases b with
    | nil => simp [nibblesLt] at h1
    | cons y ys =>
      cases c with
      | nil => rw [nibblesLt_nil_right] at h2; simp at h2
      | cons z zs => rfl
  | cons x xs ih =>
    intro b c h1 h2
    cases b with
    | nil => rw [nibblesLt_nil_right] at h1; simp at h1
    | cons y ys =>
      cases c with
      | nil => rw [nibblesLt_nil_right] at h2; simp at h2
      | cons z zs =>
        rw [nibblesLt_cons_iff] at h1 h2 ⊢
        rcases h1 with h1 | ⟨rfl, h1⟩
        · rcases h2 with h2 | ⟨rfl, h2⟩
          · exact Or.inl (h1.trans h2)
          · exact Or.inl h1
        · rcases h2 with h2 | ⟨rfl, h2⟩
          · exact Or.inl h2
          · exact Or.inr ⟨rfl, ih h1 h2⟩

theorem nibblesLt_asymm {a b : Nibbles} (h : nibblesLt a b = true) :
    nibblesLt b a = false := by
  rw [Bool.eq_false_iff]
  intro h2
  have := nibblesLt_trans h h2
  simp [nibblesLt_irrefl] at this

theorem nibblesLt_conn : ∀ {a b : Nibbles},
    nibblesLt a b = false → nibblesLt b a = false → a = b := by
  intro a
  induction a with
  | nil =>
    intro b h1 h2
    cases b with
    | nil => rfl
    | cons y ys => simp [nibblesLt] at h1
  | cons x xs ih =>
    intro b h1 h2
    cases b with
    | nil => simp [nibblesLt] at h2
    | cons y ys =>
      rw [Bool.eq_false_iff, Ne, nibblesLt_cons_iff] at h1 h2
      push_neg at h1 h2
      have hxy : x = y := by omega
      subst hxy
      have t1 : nibblesLt xs ys = false := by
        rw [Bool.eq_false_iff]; exact h1.2 rfl
      have t2 : nibblesLt ys xs = false := by
        rw [Bool.eq_false_iff]; exact h2.2 rfl
      rw [ih t1 t2]

theorem nibblesLt_cases (a b : Nibbles) :
    nibblesLt a b = true ∨ a = b ∨ nibblesLt b a = true := by
  by_cases h1 : nibblesLt a b = true
  · exact Or.inl h1
  · by_cases h2 : nibblesLt b a = true
    · exact Or.inr (Or.inr h2)
    · exact Or.inr (Or.inl (nibblesLt_conn
        (Bool.not_eq_true _ ▸ h1) (Bool.not_eq_true _ ▸ h2)))

theorem nibblesLe_refl (a : Nibbles) : nibblesLe a a := nibblesLt_irrefl a

theorem nibblesLe_trans {a b c : Nibbles} (h1 : nibblesLe a b) (h2 : nibblesLe b c) :
    nibblesLe a c := by
  unfold nibblesLe at *
  rcases nibblesLt_cases c a with h | h | h
  · rcases nibblesLt_cases a b with g | g | g
    · have := nibblesLt_trans h g
      simp [this] at h2
    · subst g; simp [h] at h2
    · simp [g] at h1
  · subst h; exact nibblesLt_irrefl _
  · exact nibblesLt_asymm h

theorem startsWith_nil_right (a : Nibbles) : startsWith a [] = true := by
  cases a <;> rfl

theorem startsWith_refl (a : Nibbles) : startsWith a a = true := by
  induction a with
  | nil => rfl
  | cons x xs ih => simp [startsWith, ih]

/-- A key starting with `q` is not lexicographically below `q`. -/
theorem startsWith_not_lt : ∀ {k q : Nibbles},
    startsWith k q = true → nibblesLt k q = false := by
  intro k
  induction k with
  | nil =>
    intro q h
    cases q with
    | nil => rfl
    | cons y qs => simp [startsWith] at h
  | cons x ks ih =>
    intro q h
    cases q with
    | nil => exact nibblesLt_nil_right _
    | cons y qs =>
      simp only [startsWith, Bool.and_eq_true, decide_eq_true_eq] at h
      obtain ⟨rfl, h2⟩ := h
      rw [Bool.eq_false_iff, Ne, nibblesLt_cons_iff]
      simp [ih h2]

/-- Any key above `q` that does not start with `q` is strictly above every
key that does start with `q`: the forward scan may stop at it. -/
theorem match_lt_blocker : ∀ {q k m : Nibbles},
    nibblesLt q k = true → startsWith k q = false → startsWith m q = true →
    nibblesLt m k = true := by
  intro q
  induction q with
  | nil =>
    intro k m h1 h2 _
    rw [startsWith_nil_right] at h2
    simp at h2
  | cons a qs ih =>
    intro k m h1 h2 h3
    cases m with
    | nil => simp [startsWith] at h3
    | cons b ms =>
      simp only [startsWith, Bool.and_eq_true, decide_eq_true_eq] at h3
      obtain ⟨rfl, h3⟩ := h3
      cases k with
      | nil => rw [nibblesLt_nil_right] at h1; simp at h1
      | cons c ks =>
        rw [nibblesLt_cons_iff] at h1 ⊢
        rcases h1 with h1 | ⟨rfl, h1⟩
        · exact Or.inl h1
        · refine Or.inr ⟨rfl, ih h1 ?_ h3⟩
          rw [Bool.eq_false_iff, Ne] at h2 ⊢
          intro hks
          exact h2 (by simp [startsWith, hks])

theorem nibblesLt_of_lt_of_le {a b c : Nibbles}
    (h1 : nibblesLt a b = true) (h2 : nibblesLe b c) : nibblesLt a c = true := by
  rcases nibblesLt_cases a c with g | g | g
  · exact g
  · subst g; unfold nibblesLe at h2; simp [h1] at h2
  · have := nibblesLt_trans g h1
    unfold nibblesLe at h2; simp [this] at h2

/-! ## Sorting and consecutive deduplication -/

theorem insertSorted_perm (x : Nibbles) (l : List Nibbles) :
    (insertSorted x l).Perm (x :: l) := by
  induction l with
  | nil => exact List.Perm.refl _
  | cons y ys ih =>
    simp only [insertSorted]
    split
    · exact (ih.cons y).trans (List.Perm.swap x y ys)
    · exact List.Perm.refl _

theorem sortNibbles_perm (l : List Nibbles) : (sortNibbles l).Perm l := by
  induction l with
  | nil => exact List.Perm.refl _
  | cons x xs ih => exact (insertSorted_perm x (sortNibbles xs)).trans (ih.cons x)

theorem insertSorted_pairwise {l : List Nibbles} (x : Nibbles)
    (h : List.Pairwise nibblesLe l) : List.Pairwise nibblesLe (insertSorted x l) := by
  induction l with
  | nil => simp [insertSorted, List.pairwise_cons]
  | cons y ys ih =>
    obtain ⟨hhead, htail⟩ := List.pairwise_cons.mp h
    simp only [insertSorted]
    split
    · next hlt =>
      refine List.pairwise_cons.mpr ⟨?_, ih htail⟩
      intro z hz
      rcases List.mem_cons.mp ((insertSorted_perm x ys).mem_iff.mp hz) with rfl | hz'
      · exact nibblesLt_asymm hlt
      · exact hhead z hz'
    · next hlt =>
      have hxy : nibblesLe x y := Bool.eq_false_iff.mpr hlt
      refine List.pairwise_cons.mpr ⟨?_, h⟩
      intro z hz
      rcases List.mem_cons.mp hz with rfl | hz'
      · exact hxy
      · exact nibblesLe_trans hxy (hhead z hz')

theorem sortNibbles_pairwise (l : List Nibbles) :
    List.Pairwise nibblesLe (sortNibbles l) := by
  induction l with
  | nil => simp [sortNibbles]
  | cons x xs ih => exact insertSorted_pairwise x ih

instance : IsAntisymm Nibbles nibblesLe :=
  ⟨fun _ _ hab hba => nibblesLt_conn hba hab⟩

theorem sortedUnique {l1 l2 : List Nibbles} (hp : l1.Perm l2)
    (h1 : List.Pairwise nibblesLe l1) (h2 : List.Pairwise nibblesLe l2) : l1 = l2 :=
  List.eq_of_perm_of_sorted hp h1 h2

theorem sortNibbles_eq_of_perm {l1 l2 : List Nibbles} (h : l1.Perm l2) :
    sortNibbles l1 = sortNibbles l2 :=
  sortedUnique ((sortNibbles_perm l1).trans (h.trans (sortNibbles_perm l2).symm))
    (sortNibbles_pairwise l1) (sortNibbles_pairwise l2)

theorem mem_dedupConsec : ∀ (l : List Nibbles) (x : Nibbles),
    x ∈ dedupConsec l ↔ x ∈ l
  | [], _ => Iff.rfl
  | [_], _ => Iff.rfl
  | a :: b :: rest, x => by
    by_cases h : a = b
    · subst h
      rw [show dedupConsec (a :: a :: rest) = dedupConsec (a :: rest) by
        simp [dedupConsec]]
      rw [mem_dedupConsec (a :: rest) x]
      simp [List.mem_cons]
    · rw [show dedupConsec (a :: b :: rest) = a :: dedupConsec (b :: rest) by
        simp [dedupConsec, h]]
      simp [List.mem_cons, mem_dedupConsec (b :: rest) x]

theorem dedupConsec_pairwise_lt : ∀ {l : List Nibbles},
    List.Pairwise nibblesLe l →
    List.Pairwise (fun a b => nibblesLt a b = true) (dedupConsec l)
  | [], _ => by simp [dedupConsec]
  | [a], _ => by simp [dedupConsec]
  | a :: b :: rest, hp => by
    obtain ⟨hhead, htail⟩ := List.pairwise_cons.mp hp
    by_cases h : a = b
    · rw [show dedupConsec (a :: b :: rest) = dedupConsec (b :: rest) by
        simp [dedupConsec, h]]
      exact dedupConsec_pairwise_lt htail
    · rw [show dedupConsec (a :: b :: rest) = a :: dedupConsec (b :: rest) by
        simp [dedupConsec, h]]
      refine List.pairwise_cons.mpr ⟨?_, dedupConsec_pairwise_lt htail⟩
      intro y hy
      rw [mem_dedupConsec] at hy
      have haltb : nibblesLt a b = true := by
        rcases nibblesLt_cases a b with g | g | g
        · exact g
        · exact absurd g h
        · have hab := hhead b (by simp)
          unfold nibblesLe at hab; simp [g] at hab
      rcases List.mem_cons.mp hy with rfl | hy'
      · exact haltb
      · exact nibblesLt_of_lt_of_le haltb ((List.pairwise_cons.mp htail).1 y hy')

/-! ## Correctness of the cursor algorithm -/

/-- The rewind loop never panics from a maintained cursor position, only
moves left, and stops at 0 or at a key not above the query. -/
theorem rewind_spec (keys : List Nibbles) (q : Nibbles) :
    ∀ i : Nat, (i = 0 ∨ i < keys.length) →
    ∃ i', rewind keys q i = some i' ∧ i' ≤ i ∧
      (i' = 0 ∨ ∃ h : i' < keys.length, nibblesLt q keys[i'] = false) := by
  intro i
  induction i with
  | zero => intro _; exact ⟨0, rfl, Nat.le_refl 0, Or.inl rfl⟩
  | succ n ih =>
    intro hi
    have hlen : n + 1 < keys.length := by omega
    have hget : keys[n + 1]? = some keys[n + 1] := List.getElem?_eq_getElem hlen
    cases hq : nibblesLt q keys[n + 1] with
    | true =>
      obtain ⟨i', h1, h2, h3⟩ := ih (by omega)
      refine ⟨i', ?_, by omega, h3⟩
      simp [rewind, hget, hq, h1]
    | false =>
      refine ⟨n + 1, ?_, Nat.le_refl _, Or.inr ⟨hlen, hq⟩⟩
      simp [rewind, hget, hq]

/-- The forward scan over a `nibblesLe`-sorted suffix answers exactly
"some key of the suffix starts with the query". -/
theorem scanGo_fst {q : Nibbles} : ∀ {l : List Nibbles},
    List.Pairwise nibblesLe l → ∀ (base j : Nat),
    (scanGo q base l j).1 = l.any (fun k => startsWith k q) := by
  intro l
  induction l with
  | nil => intro _ base j; rfl
  | cons k ks ih =>
    intro hp base j
    obtain ⟨hhead, htail⟩ := List.pairwise_cons.mp hp
    cases h1 : startsWith k q with
    | true => simp [scanGo, h1, List.any_cons]
    | false =>
      cases h2 : nibblesLt q k with
      | true =>
        have hks : ks.any (fun m => startsWith m q) = false := by
          rw [Bool.eq_false_iff, Ne, List.any_eq_true]
          rintro ⟨m, hm, hsw⟩
          have hmk := match_lt_blocker h2 h1 hsw
          have hle := hhead m hm
          unfold nibblesLe at hle
          simp [hmk] at hle
        simp [scanGo, h1, h2, List.any_cons, hks]
      | false =>
        simp [scanGo, h1, h2, List.any_cons, ih htail base (j + 1)]

/-- The forward scan leaves the cursor at its base, or at the absolute
position of an element of the scanned suffix. -/
theorem scanGo_snd {q : Nibbles} : ∀ (l : List Nibbles) (base j : Nat),
    (scanGo q base l j).2 = base ∨
      (j ≤ (scanGo q base l j).2 ∧ (scanGo q base l j).2 < j + l.length) := by
  intro l
  induction l with
  | nil => intro base j; exact Or.inl rfl
  | cons k ks ih =>
    intro base j
    cases h1 : startsWith k q with
    | true =>
      right
      simp only [scanGo, h1, List.length_cons, if_true]
      constructor <;> omega
    | false =>
      cases h2 : nibblesLt q k with
      | true =>
        right
        simp only [scanGo, h1, h2]
        simp only [List.length_cons, Bool.false_eq_true, if_false, if_true]
        constructor <;> omega
      | false =>
        rcases ih base (j + 1) with h | ⟨ha, hb⟩
        · left
          simp only [scanGo, h1, h2, Bool.false_eq_true, if_false]
          exact h
        · right
          simp only [scanGo, h1, h2, Bool.false_eq_true, if_false, List.length_cons]
          constructor <;> omega

/-- Dropping everything left of a key that is not above the query loses no
match: the suffix answers the global question. -/
theorem any_drop_eq (keys : List Nibbles) (q : Nibbles)
    (hp : List.Pairwise nibblesLe keys) (i : Nat)
    (hi : i = 0 ∨ ∃ h : i < keys.length, nibblesLt q keys[i] = false) :
    (keys.drop i).any (fun k => startsWith k q) =
      keys.any (fun k => startsWith k q) := by
  rcases hi with rfl | ⟨h, hle⟩
  · rfl
  · conv_rhs => rw [← List.take_append_drop i keys]
    rw [List.any_append]
    cases hta : (keys.take i).any (fun k => startsWith k q) with
    | false => simp
    | true =>
      simp only [Bool.true_or]
      obtain ⟨m, hm, hsw⟩ := List.any_eq_true.mp hta
      have hpa : List.Pairwise nibblesLe (List.take i keys ++ List.drop i keys) := by
        rw [List.take_append_drop]; exact hp
      have hsplit := (List.pairwise_append.mp hpa).2.2
      have hdropcons : keys.drop i = keys[i] :: keys.drop (i + 1) :=
        List.drop_eq_getElem_cons h
      have hmle : nibblesLe m keys[i] := by
        refine hsplit m hm keys[i] ?_
        rw [hdropcons]; exact List.mem_cons_self _ _
      have h1 : nibblesLt keys[i] m = false := hmle
      have h2 : nibblesLt m keys[i] = false := by
        rw [Bool.eq_false_iff, Ne]
        intro hlt
        have : nibblesLt m q = true := nibblesLt_of_lt_of_le hlt hle
        simp [startsWith_not_lt hsw] at this
      have hmeq : m = keys[i] := nibblesLt_conn h2 h1
      rw [hdropcons]
      simp [List.any_cons, ← hmeq, hsw]

/-- Full specification of `PrefixSet::contains` on a non-`all` set with
sorted keys, from any maintained cursor position: no panic, the answer is
"some key starts with the query", the keys and flag are untouched, and the
new cursor is again maintained. -/
theorem contains_spec (s : PrefixSet) (q : Nibbles)
    (hall : s.all = false) (hs : List.Pairwise nibblesLe s.keys)
    (hc : cursorOK s) :
    ∃ s' : PrefixSet,
      s.contains q = some (s.keys.any (fun k => startsWith k q), s') ∧
      s'.all = false ∧ s'.keys = s.keys ∧ cursorOK s' := by
  obtain ⟨i, hr, hile, hpost⟩ := rewind_spec s.keys q s.index hc
  have hdp : List.Pairwise nibblesLe (s.keys.drop i) :=
    List.Pairwise.sublist (List.drop_sublist i s.keys) hs
  have hfst : (scanGo q i (s.keys.drop i) i).1 =
      s.keys.any (fun k => startsWith k q) := by
    rw [scanGo_fst hdp i i, any_drop_eq s.keys q hs i hpost]
  refine ⟨⟨s.all, (scanGo q i (s.keys.drop i) i).2, s.keys⟩, ?_, hall, rfl, ?_⟩
  · simp [PrefixSet.contains, hall, hr, hfst]
  · have hilen : i ≤ s.keys.length := by
      rcases hpost with rfl | ⟨hh, _⟩ <;> omega
    have hgoal : (scanGo q i (s.keys.drop i) i).2 = 0 ∨
        (scanGo q i (s.keys.drop i) i).2 < s.keys.length := by
      rcases scanGo_snd (s.keys.drop i) i i with h | ⟨ha, hb⟩
      · rw [h]
        rcases hpost with rfl | ⟨hh, _⟩
        · exact Or.inl rfl
        · exact Or.inr hh
      · rw [List.length_drop] at hb
        exact Or.inr (by omega)
    exact hgoal

/-- From a cursor position satisfying the rewind post-condition, the scan
leaves the cursor at 0 or strictly inside the key list. -/
theorem scan_index_ok (keys : List Nibbles) (q : Nibbles) (i : Nat)
    (hpost : i = 0 ∨ ∃ h : i < keys.length, nibblesLt q keys[i] = false) :
    (scanGo q i (keys.drop i) i).2 = 0 ∨
      (scanGo q i (keys.drop i) i).2 < keys.length := by
  have hilen : i ≤ keys.length := by rcases hpost with rfl | ⟨hh, _⟩ <;> omega
  rcases scanGo_snd (keys.drop i) i i with h | ⟨ha, hb⟩
  · rw [h]
    rcases hpost with rfl | ⟨hh, _⟩
    · exact Or.inl rfl
    · exact Or.inr hh
  · rw [List.length_drop] at hb
    exact Or.inr (by omega)

/-- From any maintained cursor position, `contains` never panics,
preserves the flag and the keys, and maintains the cursor, with no
assumption on the key list. -/
theorem contains_total (s : PrefixSet) (q : Nibbles) (hc : cursorOK s) :
    ∃ b s', s.contains q = some (b, s') ∧ s'.all = s.all ∧ s'.keys = s.keys ∧
      cursorOK s' := by
  cases hall : s.all with
  | true => exact ⟨true, s, by simp [PrefixSet.contains, hall], hall, rfl, hc⟩
  | false =>
    obtain ⟨i, hr, hile, hpost⟩ := rewind_spec s.keys q s.index hc
    refine ⟨(scanGo q i (s.keys.drop i) i).1,
      ⟨s.all, (scanGo q i (s.keys.drop i) i).2, s.keys⟩, ?_, hall, rfl, ?_⟩
    · simp [PrefixSet.contains, hall, hr]
    · exact scan_index_ok s.keys q i hpost

/-- Any sequence of `contains` queries from a maintained cursor position
runs to completion with the cursor still maintained. -/
theorem runQueries_total : ∀ (qs : List Nibbles) (s : PrefixSet), cursorOK s →
    ∃ s', runQueries s qs = some s' ∧ cursorOK s' := by
  intro qs
  induction qs with
  | nil => intro s hc; exact ⟨s, rfl, hc⟩
  | cons q qs ih =>
    intro s hc
    obtain ⟨b, s1, hcont, _, _, hc1⟩ := contains_total s q hc
    obtain ⟨s', hrun, hc'⟩ := ih s1 hc1
    exact ⟨s', by simp [runQueries, hcont, hrun], hc'⟩

/-! ## Freeze properties -/

theorem freeze_of_all {s : PrefixSetMut} (h : s.all = true) :
    s.freeze = ⟨true, 0, []⟩ := by
  simp [PrefixSetMut.freeze, h]

theorem freeze_of_not_all {s : PrefixSetMut} (h : s.all = false) :
    s.freeze = ⟨false, 0, dedupConsec (sortNibbles s.keys)⟩ := by
  simp [PrefixSetMut.freeze, h]

theorem contains_of_all {s : PrefixSet} (h : s.all = true) (q : Nibbles) :
    s.contains q = some (true, s) := by
  simp [PrefixSet.contains, h]

theorem freeze_keys_pairwise_lt (s : PrefixSetMut) :
    List.Pairwise (fun a b => nibblesLt a b = true) s.freeze.keys := by
  cases h : s.all with
  | true => rw [freeze_of_all h]; simp
  | false =>
    rw [freeze_of_not_all h]
    exact dedupConsec_pairwise_lt (sortNibbles_pairwise s.keys)

theorem freeze_keys_pairwise_le (s : PrefixSetMut) :
    List.Pairwise nibblesLe s.freeze.keys :=
  (freeze_keys_pairwise_lt s).imp fun h => nibblesLt_asymm h

theorem freeze_cursorOK (s : PrefixSetMut) : cursorOK s.freeze := by
  cases h : s.all with
  | true => rw [freeze_of_all h]; exact Or.inl rfl
  | false => rw [freeze_of_not_all h]; exact Or.inl rfl

theorem freeze_mem {s : PrefixSetMut} (h : s.all = false) (x : Nibbles) :
    x ∈ s.freeze.keys ↔ x ∈ s.keys := by
  rw [freeze_of_not_all h]
  rw [show (⟨false, 0, dedupConsec (sortNibbles s.keys)⟩ : PrefixSet).keys
    = dedupConsec (sortNibbles s.keys) from rfl]
  rw [mem_dedupConsec]
  exact (sortNibbles_perm s.keys).mem_iff

/-- Accumulating inserts appends the inserted paths in order and leaves
the flag alone. -/
theorem foldl_insert (ps : List Nibbles) : ∀ (m : PrefixSetMut),
    (ps.foldl PrefixSetMut.insert m).all = m.all ∧
    (ps.foldl PrefixSetMut.insert m).keys = m.keys ++ ps := by
  induction ps with
  | nil => intro m; simp
  | cons p ps ih =>
    intro m
    obtain ⟨h1, h2⟩ := ih (m.insert p)
    refine ⟨h1, ?_⟩
    rw [List.foldl_cons, h2]
    simp [PrefixSetMut.insert]

/-! ## Merge commutativity helpers -/

theorem empty_extend (s : PrefixSetMut) : PrefixSetMut.empty.extend s = s := by
  cases s
  simp [PrefixSetMut.extend, PrefixSetMut.empty]

/-- Freezing is insensitive to the merge order of two builders. -/
theorem freeze_extend_comm (a b : PrefixSetMut) :
    (a.extend b).freeze = (b.extend a).freeze := by
  cases ha : a.all with
  | true =>
    rw [freeze_of_all (by simp [PrefixSetMut.extend, ha]),
      freeze_of_all (by simp [PrefixSetMut.extend, ha])]
  | false =>
    cases hb : b.all with
    | true =>
      rw [freeze_of_all (by simp [PrefixSetMut.extend, hb]),
        freeze_of_all (by simp [PrefixSetMut.extend, hb])]
    | false =>
      rw [freeze_of_not_all (by simp [PrefixSetMut.extend, ha, hb]),
        freeze_of_not_all (by simp [PrefixSetMut.extend, ha, hb])]
      have : sortNibbles (a.extend b).keys = sortNibbles (b.extend a).keys := by
        simp only [PrefixSetMut.extend]
        exact sortNibbles_eq_of_perm List.perm_append_comm
      rw [this]

theorem assocLookup_map_freeze (l : List (B256 × PrefixSetMut)) (x : B256) :
    assocLookup (l.map fun e => (e.1, e.2.freeze)) x =
      Option.map PrefixSetMut.freeze (assocLookup l x) := by
  induction l with
  | nil => rfl
  | cons e rest ih =>
    obtain ⟨a, v⟩ := e
    by_cases h : x = a
    · simp [assocLookup, h]
    · simp [assocLookup, h, ih]

theorem assocLookup_eq_none_of_not_mem {β : Type} {l : List (B256 × β)} {x : B256}
    (h : x ∉ l.map Prod.fst) : assocLookup l x = none := by
  induction l with
  | nil => rfl
  | cons e rest ih =>
    obtain ⟨a, v⟩ := e
    simp only [List.map_cons, List.mem_cons] at h
    push_neg at h
    simp [assocLookup, h.1, ih h.2]

theorem assocLookup_mapExtendEntry (m : List (B256 × PrefixSetMut)) (a : B256)
    (ps : PrefixSetMut) (x : B256) :
    assocLookup (mapExtendEntry m a ps) x =
      if x = a then
        some (((assocLookup m a).getD PrefixSetMut.empty).extend ps)
      else assocLookup m x := by
  induction m with
  | nil =>
    by_cases h : x = a <;> simp [mapExtendEntry, assocLookup, h]
  | cons e rest ih =>
    obtain ⟨b, v⟩ := e
    by_cases hab : a = b
    · subst hab
      by_cases hx : x = a
      · subst hx
        simp [mapExtendEntry, assocLookup]
      · simp [mapExtendEntry, assocLookup, hx]
    · by_cases hx : x = b
      · subst hx
        have hxa : ¬ x = a := fun h => hab h.symm
        simp [mapExtendEntry, hab, assocLookup, hxa]
      · simp [mapExtendEntry, hab, assocLookup, hx, ih]

/-- Folding another map's entries in via `entry().or_default().extend()`:
the lookup of the result combines the two lookups, provided the folded
map's keys are unique. -/
theorem assocLookup_foldl_extend (l : List (B256 × PrefixSetMut)) :
    ∀ (m : List (B256 × PrefixSetMut)), (l.map Prod.fst).Nodup → ∀ x,
    assocLookup (l.foldl (fun m e => mapExtendEntry m e.1 e.2) m) x =
      match assocLookup l x with
      | none => assocLookup m x
      | some ps => some (((assocLookup m x).getD PrefixSetMut.empty).extend ps) := by
  induction l with
  | nil => intro m _ x; rfl
  | cons e rest ih =>
    intro m hnd x
    obtain ⟨a, ps⟩ := e
    simp only [List.map_cons, List.nodup_cons] at hnd
    obtain ⟨hna, hnd'⟩ := hnd
    rw [List.foldl_cons, ih (mapExtendEntry m a ps) hnd' x]
    by_cases hx : x = a
    · subst hx
      rw [assocLookup_eq_none_of_not_mem hna]
      simp [assocLookup, assocLookup_mapExtendEntry]
    · simp [assocLookup, hx, assocLookup_mapExtendEntry]

theorem mem_setExtend (l : List B256) : ∀ (d : List B256) (x : B256),
    x ∈ setExtend d l ↔ x ∈ d ∨ x ∈ l := by
  induction l with
  | nil => intro d x; simp [setExtend]
  | cons a rest ih =>
    intro d x
    have step : setExtend d (a :: rest)
        = setExtend (if a ∈ d then d else d ++ [a]) rest := rfl
    rw [step, ih]
    by_cases h : a ∈ d
    · simp only [if_pos h, List.mem_cons]
      constructor
      · rintro (hx | hx)
        · exact Or.inl hx
        · exact Or.inr (Or.inr hx)
      · rintro (hx | rfl | hx)
        · exact Or.inl hx
        · exact Or.inl h
        · exact Or.inr hx
    · simp only [if_neg h, List.mem_append, List.mem_singleton, List.mem_cons]
      tauto

/-! ## The claims -/

/-- Claim C1: on a frozen set with `all_changed` false, `contains(P)`
returns true iff some stored key starts with `P`; the boolean does not
depend on the in-range cursor position at entry, and repeating the query
returns the same result. -/
theorem claim_C1_contains_iff (s : PrefixSet) (q : Nibbles)
    (hall : s.all = false) (hs : List.Pairwise nibblesLe s.keys)
    (hc : cursorOK s) :
    ∃ b s', s.contains q = some (b, s') ∧
      (b = true ↔ ∃ k ∈ s.keys, startsWith k q = true) ∧
      s'.all = false ∧ s'.keys = s.keys ∧ cursorOK s' ∧
      (∀ b2 s2, s'.contains q = some (b2, s2) → b2 = b) := by
  obtain ⟨s', hcont, ha', hk', hc'⟩ := contains_spec s q hall hs hc
  refine ⟨_, s', hcont, List.any_eq_true, ha', hk', hc', ?_⟩
  intro b2 s2 h2
  obtain ⟨s'', hcont'', _, _, _⟩ :=
    contains_spec s' q ha' (by rw [hk']; exact hs) hc'
  rw [h2] at hcont''
  have hinj := Option.some.inj hcont''
  have hb2 : b2 = s'.keys.any (fun k => startsWith k q) := congrArg Prod.fst hinj
  rw [hb2, hk']

theorem claim_C1_contains_iff_witness :
    ∃ b s', (PrefixSet.mk false 1 [[1,2],[1,3],[2,0]]).contains [1] = some (b, s') ∧
      (b = true ↔ ∃ k ∈ [[1,2],[1,3],[2,0]], startsWith k [1] = true) ∧
      s'.all = false ∧ s'.keys = [[1,2],[1,3],[2,0]] ∧ cursorOK s' ∧
      (∀ b2 s2, s'.contains [1] = some (b2, s2) → b2 = b) :=
  claim_C1_contains_iff ⟨false, 1, [[1,2],[1,3],[2,0]]⟩ [1] rfl (by decide) (by decide)

/-- Claim C2: inserting any sequence of paths into an empty builder and
freezing yields a strictly sorted key list whose elements are exactly the
inserted paths. -/
theorem claim_C2_freeze_sorted_dedup (ps : List Nibbles) :
    List.Pairwise (fun a b => nibblesLt a b = true)
      ((ps.foldl PrefixSetMut.insert PrefixSetMut.empty).freeze).keys ∧
    ∀ x, x ∈ ((ps.foldl PrefixSetMut.insert PrefixSetMut.empty).freeze).keys
      ↔ x ∈ ps := by
  obtain ⟨hall, hkeys⟩ := foldl_insert ps PrefixSetMut.empty
  have hall' : (ps.foldl PrefixSetMut.insert PrefixSetMut.empty).all = false := by
    rw [hall]; rfl
  refine ⟨freeze_keys_pairwise_lt _, fun x => ?_⟩
  rw [freeze_mem hall', hkeys]
  simp [PrefixSetMut.empty]

/-- Claim C3: freezing any builder whose `all_changed` flag is true gives
empty keys and a set on which every `contains` returns true. -/
theorem claim_C3_all_freeze (m : PrefixSetMut) (h : m.all = true) :
    m.freeze.keys = [] ∧ ∀ q, m.freeze.contains q = some (true, m.freeze) := by
  constructor
  · rw [freeze_of_all h]
  · intro q
    exact contains_of_all (by rw [freeze_of_all h]) q

theorem claim_C3_all_freeze_witness :
    (PrefixSetMut.allChanged.insert [1,2]).freeze.keys = [] ∧
    (PrefixSetMut.allChanged.insert [1,2]).freeze.contains [0,5]
      = some (true, (PrefixSetMut.allChanged.insert [1,2]).freeze) :=
  ⟨(claim_C3_all_freeze (PrefixSetMut.allChanged.insert [1,2]) rfl).1,
   (claim_C3_all_freeze (PrefixSetMut.allChanged.insert [1,2]) rfl).2 [0,5]⟩

/-- Claim C4 counterexample: inserting into an `all_changed` builder does
change `len()` — the path is pushed, not discarded. -/
theorem claim_C4_counterexample :
    (PrefixSetMut.allChanged.insert [1]).len ≠ PrefixSetMut.allChanged.len := by
  decide

/-- Claim C4, amended: on an `all_changed` builder, `insert` appends the
path regardless (`len` grows by one and the flag stays set); the path is
discarded only at `freeze`, whose result has empty keys. -/
theorem claim_C4_insert_appends (m : PrefixSetMut) (x : Nibbles)
    (h : m.all = true) :
    (m.insert x).len = m.len + 1 ∧ (m.insert x).all = true ∧
    (m.insert x).freeze.keys = [] := by
  refine ⟨?_, ?_, ?_⟩
  · simp [PrefixSetMut.insert, PrefixSetMut.len]
  · simpa [PrefixSetMut.insert] using h
  · rw [freeze_of_all (show (m.insert x).all = true by
      simpa [PrefixSetMut.insert] using h)]

theorem claim_C4_insert_appends_witness :
    PrefixSetMut.allChanged.all = true ∧
    ((PrefixSetMut.allChanged.insert [7]).len = PrefixSetMut.allChanged.len + 1 ∧
     (PrefixSetMut.allChanged.insert [7]).all = true ∧
     (PrefixSetMut.allChanged.insert [7]).freeze.keys = []) :=
  ⟨rfl, claim_C4_insert_appends PrefixSetMut.allChanged [7] rfl⟩

/-- Claim C5: on any frozen set, every sequence of `contains` calls runs
without any out-of-bounds access (no panic), and the cursor always stays
in `[0, keys.len()]`. -/
theorem claim_C5_no_fault (m : PrefixSetMut) (qs : List Nibbles) :
    ∃ s', runQueries m.freeze qs = some s' ∧ s'.index ≤ s'.keys.length := by
  obtain ⟨s', hrun, hc'⟩ := runQueries_total qs m.freeze (freeze_cursorOK m)
  refine ⟨s', hrun, ?_⟩
  rcases hc' with h | h <;> omega

/-- Claim C6: merging two aggregates in either order and freezing yields
aggregates that answer every query identically — equal account `contains`
answers, storage sets present for the same addresses with equal `contains`
answers, and equal destroyed-account sets. -/
theorem claim_C6_extend_comm (A B : TriePrefixSetsMut)
    (hA : (A.storage_prefix_sets.map Prod.fst).Nodup)
    (hB : (B.storage_prefix_sets.map Prod.fst).Nodup) :
    (∀ q, (A.extend B).freeze.account_prefix_set.contains q
        = (B.extend A).freeze.account_prefix_set.contains q) ∧
    (∀ a, (assocLookup (A.extend B).freeze.storage_prefix_sets a).isSome
        = (assocLookup (B.extend A).freeze.storage_prefix_sets a).isSome) ∧
    (∀ a s1 s2, assocLookup (A.extend B).freeze.storage_prefix_sets a = some s1 →
      assocLookup (B.extend A).freeze.storage_prefix_sets a = some s2 →
      ∀ q, s1.contains q = s2.contains q) ∧
    (∀ x, x ∈ (A.extend B).freeze.destroyed_accounts
        ↔ x ∈ (B.extend A).freeze.destroyed_accounts) := by
  have hacct : (A.extend B).freeze.account_prefix_set
      = (B.extend A).freeze.account_prefix_set :=
    freeze_extend_comm A.account_prefix_set B.account_prefix_set
  have hstore : ∀ a, assocLookup (A.extend B).freeze.storage_prefix_sets a
      = assocLookup (B.extend A).freeze.storage_prefix_sets a := by
    intro a
    show assocLookup
        (((B.storage_prefix_sets.foldl (fun m e => mapExtendEntry m e.1 e.2)
          A.storage_prefix_sets)).map fun e => (e.1, e.2.freeze)) a
      = assocLookup
        (((A.storage_prefix_sets.foldl (fun m e => mapExtendEntry m e.1 e.2)
          B.storage_prefix_sets)).map fun e => (e.1, e.2.freeze)) a
    rw [assocLookup_map_freeze, assocLookup_map_freeze,
      assocLookup_foldl_extend B.storage_prefix_sets A.storage_prefix_sets hB a,
      assocLookup_foldl_extend A.storage_prefix_sets B.storage_prefix_sets hA a]
    cases hA' : assocLookup A.storage_prefix_sets a with
    | none =>
      cases hB' : assocLookup B.storage_prefix_sets a with
      | none => simp
      | some o => simp [empty_extend]
    | some s =>
      cases hB' : assocLookup B.storage_prefix_sets a with
      | none => simp [empty_extend]
      | some o => simp [freeze_extend_comm s o]
  refine ⟨fun q => by rw [hacct], fun a => by rw [hstore a], ?_, ?_⟩
  · intro a s1 s2 h1 h2 q
    rw [hstore a] at h1
    have := Option.some.inj (h1.symm.trans h2)
    rw [this]
  · intro x
    show x ∈ setExtend A.destroyed_accounts B.destroyed_accounts
      ↔ x ∈ setExtend B.destroyed_accounts A.destroyed_accounts
    rw [mem_setExtend, mem_setExtend]
    tauto

/-- Concrete aggregate used by the C6 witness. -/
def claimC6A : TriePrefixSetsMut := ⟨⟨false, [[1]]⟩, [(5, ⟨false, [[2]]⟩)], [9]⟩

/-- Concrete aggregate used by the C6 witness. -/
def claimC6B : TriePrefixSetsMut :=
  ⟨⟨false, [[0]]⟩, [(5, ⟨false, [[3]]⟩), (6, ⟨false, [[4]]⟩)], [8]⟩

theorem claim_C6_extend_comm_witness :
    ((claimC6A.extend claimC6B).freeze.account_prefix_set.contains [1]
      = (claimC6B.extend claimC6A).freeze.account_prefix_set.contains [1]) ∧
    ((assocLookup (claimC6A.extend claimC6B).freeze.storage_prefix_sets 5).isSome
      = (assocLookup (claimC6B.extend claimC6A).freeze.storage_prefix_sets 5).isSome) ∧
    ((PrefixSet.mk false 0 [[2],[3]]).contains [0]
      = (PrefixSet.mk false 0 [[2],[3]]).contains [0]) ∧
    (9 ∈ (claimC6A.extend claimC6B).freeze.destroyed_accounts
      ↔ 9 ∈ (claimC6B.extend claimC6A).freeze.destroyed_accounts) := by
  have h := claim_C6_extend_comm claimC6A claimC6B (by decide) (by decide)
  exact ⟨h.1 [1], h.2.1 5,
    h.2.2.1 5 ⟨false, 0, [[2],[3]]⟩ ⟨false, 0, [[2],[3]]⟩ (by decide) (by decide) [0],
    h.2.2.2 9⟩

/-- Claim C7: `PrefixSetMut::extend` computes the disjunction of the
`all_changed` flags and appends the other key list in order. -/
theorem claim_C7_extend_flag_keys (a b : PrefixSetMut) :
    (a.extend b).all = (a.all || b.all) ∧ (a.extend b).keys = a.keys ++ b.keys :=
  ⟨rfl, rfl⟩

/-- Claim C8: the aggregate `is_empty` is true iff the account key list,
the storage map and the destroyed-accounts set are all empty. -/
theorem claim_C8_aggregate_is_empty (t : TriePrefixSetsMut) :
    t.is_empty = true ↔
      t.account_prefix_set.keys = [] ∧ t.storage_prefix_sets = [] ∧
        t.destroyed_accounts = [] := by
  simp [TriePrefixSetsMut.is_empty, PrefixSetMut.is_empty, Bool.and_eq_true,
    List.isEmpty_iff]
  tauto

/-- Claim C9: `TriePrefixSetsMut::freeze` moves the destroyed accounts
unchanged, freezes the account set, and maps each storage address to the
freeze of its mutable set, preserving the address set. -/
theorem claim_C9_freeze_frame (t : TriePrefixSetsMut) :
    t.freeze.destroyed_accounts = t.destroyed_accounts ∧
    t.freeze.account_prefix_set = t.account_prefix_set.freeze ∧
    t.freeze.storage_prefix_sets.map Prod.fst
      = t.storage_prefix_sets.map Prod.fst ∧
    ∀ a, assocLookup t.freeze.storage_prefix_sets a
        = Option.map PrefixSetMut.freeze (assocLookup t.storage_prefix_sets a) := by
  refine ⟨rfl, rfl, ?_, fun a => assocLookup_map_freeze _ a⟩
  show (t.storage_prefix_sets.map fun e => (e.1, e.2.freeze)).map Prod.fst
    = t.storage_prefix_sets.map Prod.fst
  rw [List.map_map]
  rfl

/-- Claim C10: `len`/`is_empty` ignore the `all_changed` flag on both
forms: a set frozen from `PrefixSetMut::all()` reports empty and length 0
while `contains` answers true everywhere, and an aggregate whose account
set is `PrefixSetMut::all()` (empty storage map, no destroyed accounts)
reports `is_empty` true. -/
theorem claim_C10_len_ignores_all :
    (∀ (b : Bool) (ks : List Nibbles),
      (PrefixSetMut.mk b ks).len = ks.length ∧
      (PrefixSetMut.mk b ks).is_empty = ks.isEmpty) ∧
    PrefixSetMut.allChanged.is_empty = true ∧
    PrefixSetMut.allChanged.len = 0 ∧
    PrefixSetMut.allChanged.freeze.is_empty = true ∧
    PrefixSetMut.allChanged.freeze.len = 0 ∧
    (∀ q, PrefixSetMut.allChanged.freeze.contains q
        = some (true, PrefixSetMut.allChanged.freeze)) ∧
    (TriePrefixSetsMut.mk PrefixSetMut.allChanged [] []).is_empty = true := by
  refine ⟨fun b ks => ⟨rfl, rfl⟩, rfl, rfl, by decide, by decide,
    fun q => contains_of_all (by decide) q, rfl⟩
